import Mathlib

/-!
Shallow embedding of the LRU cache in `cache/cache.go` (package `cache`).

The Go implementation keeps two structures:
* `ll : *list.List` — the recency list, front = most recently used;
* `dict : sync.Map` — the key index, mapping `string(node.GetKey())` to the
  `*list.Element` holding that node.

We model keys (`[]byte` converted to `string`) as `List Nat`, the recency
list as a `List Node` whose head is the front, and the key index by its
domain, a `List Key` (the map's values are `*list.Element` pointers, which
in the embedding are recovered by looking the key up in the recency list;
on every state reachable through the public API the list holds exactly one
node per indexed key, which is proved below as the invariant `Inv`).
`maxElementCount` is a Go `int`, kept as `Int` so that non-positive
capacities behave as in the source.
-/

namespace LRU

/-- Byte-string keys (`[]byte` / `string` in the Go source). -/
abbrev Key := List Nat

/-- A cacheable node: the `Node` interface of the source exposes only
`GetKey() []byte`; `val` stands for the rest of the concrete value, so
that distinct nodes with equal keys exist in the model. -/
structure Node where
  key : Key
  val : Nat
deriving DecidableEq, Repr

/-- The `GetKey` accessor of the `Node` interface. -/
def Node.GetKey (n : Node) : Key := n.key

/-- State of `lruCache`: the key-index domain `dict`, the fixed
`maxElementCount`, and the recency list `ll` (head = front = most
recently used). -/
structure lruCache where
  dict : List Key
  maxElementCount : Int
  ll : List Node
deriving DecidableEq, Repr

/-- `New(maxElementCount)`: empty index, empty recency list. -/
def New (maxElementCount : Int) : lruCache :=
  { dict := [], maxElementCount := maxElementCount, ll := [] }

/-- `Len()`: length of the recency list (`c.ll.Len()`). -/
def Len (c : lruCache) : Nat := c.ll.length

/-- `Has(key)`: a `dict.Load` existence check, no mutation. -/
def Has (c : lruCache) (key : Key) : Bool := decide (key ∈ c.dict)

/-- `Add(node)` for a non-nil `node`. Mirrors the Go source:
if the key is present, `MoveToFront` the existing element, swap its
`Value` for `node` and return the old value; otherwise `PushFront` the
node, `Store` its key, and if the list now exceeds `maxElementCount`
remove the back element from both list and index and return it.
The inner `none` branch (key indexed but absent from the list) is
unreachable from `New` — see the invariant theorems — and returns the
state unchanged. -/
def Add (c : lruCache) (node : Node) : Option Node × lruCache :=
  let key := node.GetKey
  if key ∈ c.dict then
    match c.ll.find? (fun m => m.GetKey == key) with
    | some old =>
        (some old, { c with ll := node :: c.ll.eraseP (fun m => m.GetKey == key) })
    | none => (none, c)
  else
    let ll1 := node :: c.ll
    if (ll1.length : Int) > c.maxElementCount then
      let oldest := ll1.getLast (List.cons_ne_nil _ _)
      (some oldest,
        { c with dict := (key :: c.dict).erase oldest.GetKey, ll := ll1.dropLast })
    else
      (none, { c with dict := key :: c.dict, ll := ll1 })

/-- Result of calling `Add` through the interface, where the argument may
be a nil `Node`: `panicked st` records a nil-pointer panic raised with the
cache still in state `st`. -/
inductive AddResult where
  | panicked (st : lruCache)
  | returned (ret : Option Node) (st : lruCache)
deriving DecidableEq, Repr

/-- `Add(node)` as called through the `Cache` interface: the very first
statement `key := string(node.GetKey())` dereferences `node`, so a nil
argument panics before any statement that could mutate the cache. -/
def AddIface (c : lruCache) (node : Option Node) : AddResult :=
  match node with
  | none => .panicked c
  | some n => .returned (Add c n).1 (Add c n).2

/-- `Get(key)`: on an index hit, `MoveToFront` the element and return its
value; on a miss return nil with no mutation. The inner `none` branch is
unreachable from `New` (invariant). -/
def Get (c : lruCache) (key : Key) : Option Node × lruCache :=
  if key ∈ c.dict then
    match c.ll.find? (fun m => m.GetKey == key) with
    | some ele =>
        (some ele, { c with ll := ele :: c.ll.eraseP (fun m => m.GetKey == key) })
    | none => (none, c)
  else
    (none, c)

/-- `Remove(key)`: on an index hit, remove the element from the list and
delete the key from the index, returning the removed node; otherwise nil,
no mutation. The inner `none` branch is unreachable from `New`. -/
def Remove (c : lruCache) (key : Key) : Option Node × lruCache :=
  if key ∈ c.dict then
    match c.ll.find? (fun m => m.GetKey == key) with
    | some e =>
        (some e,
          { c with ll := c.ll.eraseP (fun m => m.GetKey == key),
                   dict := c.dict.erase key })
    | none => (none, c)
  else
    (none, c)

/-- One public operation (the mutating view; `has` reads only). -/
inductive Op where
  | add (n : Node)
  | get (k : Key)
  | has (k : Key)
  | rem (k : Key)
deriving DecidableEq, Repr

/-- State after one public operation. -/
def applyOp (c : lruCache) : Op → lruCache
  | .add n => (Add c n).2
  | .get k => (Get c k).2
  | .has _ => c
  | .rem k => (Remove c k).2

/-- State after a sequence of public operations. -/
def run (c : lruCache) (ops : List Op) : lruCache := ops.foldl applyOp c

/-- Keys currently held by the recency list, in list order. -/
def keysOf (c : lruCache) : List Key := c.ll.map Node.GetKey

/-- Consistency invariant I1: the key index holds exactly one entry per
distinct key of the recency list, and their memberships agree. -/
def Inv (c : lruCache) : Prop :=
  c.dict.Nodup ∧ (keysOf c).Nodup ∧
    (∀ k ∈ c.dict, k ∈ keysOf c) ∧ (∀ k ∈ keysOf c, k ∈ c.dict)

instance (c : lruCache) : Decidable (Inv c) := by
  unfold Inv; infer_instance

/-! Helper lemmas about `find?` / `eraseP`, used to reason about
`MoveToFront` and `Remove` steps. -/

theorem find?_split {l : List Node} {p : Node → Bool} {e : Node}
    (h : l.find? p = some e) :
    ∃ l1 l2, (∀ b ∈ l1, p b = false) ∧ l = l1 ++ e :: l2 ∧
      l.eraseP p = l1 ++ l2 := by
  induction l with
  | nil => simp at h
  | cons a t ih =>
    by_cases hp : p a = true
    · rw [List.find?_cons_of_pos _ hp] at h
      cases h
      exact ⟨[], t, by simp, rfl, List.eraseP_cons_of_pos hp⟩
    · rw [List.find?_cons_of_neg _ hp] at h
      obtain ⟨l1, l2, hl1, he, her⟩ := ih h
      refine ⟨a :: l1, l2, ?_, by rw [he]; rfl, ?_⟩
      · intro b hb
        rcases List.mem_cons.mp hb with rfl | hb
        · exact Bool.eq_false_iff.mpr hp
        · exact hl1 b hb
      · rw [List.eraseP_cons_of_neg hp, her]; rfl

theorem perm_of_find? {l : List Node} {p : Node → Bool} {e : Node}
    (h : l.find? p = some e) : (e :: l.eraseP p).Perm l := by
  obtain ⟨l1, l2, -, he, her⟩ := find?_split h
  rw [her, he]
  exact (List.perm_middle).symm

theorem length_eraseP_of_find? {l : List Node} {p : Node → Bool} {e : Node}
    (h : l.find? p = some e) : (l.eraseP p).length + 1 = l.length := by
  obtain ⟨l1, l2, -, he, her⟩ := find?_split h
  rw [her, he]
  simp [Nat.add_comm, Nat.add_assoc, Nat.add_left_comm]

theorem find?_key_of_mem {l : List Node} {k : Key}
    (h : k ∈ l.map Node.GetKey) :
    ∃ e, l.find? (fun m => m.GetKey == k) = some e ∧ e.GetKey = k := by
  obtain ⟨m, hm, hmk⟩ := List.mem_map.mp h
  have hsome : (l.find? (fun m => m.GetKey == k)).isSome := by
    rw [List.find?_isSome]
    exact ⟨m, hm, by simp [hmk]⟩
  obtain ⟨e, he⟩ := Option.isSome_iff_exists.mp hsome
  refine ⟨e, he, ?_⟩
  have := List.find?_some he
  simpa using this

theorem find?_key_eq_none {l : List Node} {k : Key}
    (h : k ∉ l.map Node.GetKey) :
    l.find? (fun m => m.GetKey == k) = none := by
  rw [List.find?_eq_none]
  intro x hx
  simp only [beq_iff_eq]
  intro hk
  exact h (List.mem_map.mpr ⟨x, hx, hk⟩)

/-! Branch equations for the public operations. -/

theorem Add_mem_eq {c : lruCache} {n e : Node}
    (hk : n.GetKey ∈ c.dict)
    (hf : c.ll.find? (fun m => m.GetKey == n.GetKey) = some e) :
    Add c n =
      (some e, { c with ll := n :: c.ll.eraseP (fun m => m.GetKey == n.GetKey) }) := by
  simp only [Add, hf, if_pos hk]

theorem Add_new_evict_eq {c : lruCache} {n : Node}
    (hk : n.GetKey ∉ c.dict)
    (hlen : ((n :: c.ll).length : Int) > c.maxElementCount) :
    Add c n = (some ((n :: c.ll).getLast (List.cons_ne_nil _ _)),
      { c with
          dict := (n.GetKey :: c.dict).erase
            ((n :: c.ll).getLast (List.cons_ne_nil _ _)).GetKey,
          ll := (n :: c.ll).dropLast }) := by
  simp only [Add, if_neg hk, if_pos hlen]

theorem Add_new_fit_eq {c : lruCache} {n : Node}
    (hk : n.GetKey ∉ c.dict)
    (hlen : ¬ (((n :: c.ll).length : Int) > c.maxElementCount)) :
    Add c n = (none, { c with dict := n.GetKey :: c.dict, ll := n :: c.ll }) := by
  simp only [Add, if_neg hk, if_neg hlen]

theorem Add_dangling_eq {c : lruCache} {n : Node}
    (hk : n.GetKey ∈ c.dict)
    (hf : c.ll.find? (fun m => m.GetKey == n.GetKey) = none) :
    Add c n = (none, c) := by
  simp only [Add, hf, if_pos hk]

theorem Get_miss_eq {c : lruCache} {k : Key} (hk : k ∉ c.dict) :
    Get c k = (none, c) := by
  simp only [Get, if_neg hk]

theorem Get_hit_eq {c : lruCache} {k : Key} {e : Node} (hk : k ∈ c.dict)
    (hf : c.ll.find? (fun m => m.GetKey == k) = some e) :
    Get c k = (some e, { c with ll := e :: c.ll.eraseP (fun m => m.GetKey == k) }) := by
  simp only [Get, hf, if_pos hk]

theorem Get_dangling_eq {c : lruCache} {k : Key} (hk : k ∈ c.dict)
    (hf : c.ll.find? (fun m => m.GetKey == k) = none) :
    Get c k = (none, c) := by
  simp only [Get, hf, if_pos hk]

theorem Remove_miss_eq {c : lruCache} {k : Key} (hk : k ∉ c.dict) :
    Remove c k = (none, c) := by
  simp only [Remove, if_neg hk]

theorem Remove_hit_eq {c : lruCache} {k : Key} {e : Node} (hk : k ∈ c.dict)
    (hf : c.ll.find? (fun m => m.GetKey == k) = some e) :
    Remove c k = (some e,
      { c with ll := c.ll.eraseP (fun m => m.GetKey == k),
               dict := c.dict.erase k }) := by
  simp only [Remove, hf, if_pos hk]

theorem Remove_dangling_eq {c : lruCache} {k : Key} (hk : k ∈ c.dict)
    (hf : c.ll.find? (fun m => m.GetKey == k) = none) :
    Remove c k = (none, c) := by
  simp only [Remove, hf, if_pos hk]

/-! The fixed capacity `maxElementCount` is never written after `New`. -/

theorem Add_max {c : lruCache} {n : Node} :
    (Add c n).2.maxElementCount = c.maxElementCount := by
  by_cases hk : n.GetKey ∈ c.dict
  · cases hf : c.ll.find? (fun m => m.GetKey == n.GetKey) with
    | none => rw [Add_dangling_eq hk hf]
    | some e => rw [Add_mem_eq hk hf]
  · by_cases hlen : ((n :: c.ll).length : Int) > c.maxElementCount
    · rw [Add_new_evict_eq hk hlen]
    · rw [Add_new_fit_eq hk hlen]

theorem Get_max {c : lruCache} {k : Key} :
    (Get c k).2.maxElementCount = c.maxElementCount := by
  by_cases hk : k ∈ c.dict
  · cases hf : c.ll.find? (fun m => m.GetKey == k) with
    | none => rw [Get_dangling_eq hk hf]
    | some e => rw [Get_hit_eq hk hf]
  · rw [Get_miss_eq hk]

theorem Remove_max {c : lruCache} {k : Key} :
    (Remove c k).2.maxElementCount = c.maxElementCount := by
  by_cases hk : k ∈ c.dict
  · cases hf : c.ll.find? (fun m => m.GetKey == k) with
    | none => rw [Remove_dangling_eq hk hf]
    | some e => rw [Remove_hit_eq hk hf]
  · rw [Remove_miss_eq hk]

theorem applyOp_max (c : lruCache) (o : Op) :
    (applyOp c o).maxElementCount = c.maxElementCount := by
  cases o with
  | add n => exact Add_max
  | get k => exact Get_max
  | has k => rfl
  | rem k => exact Remove_max

theorem run_max (c : lruCache) (ops : List Op) :
    (run c ops).maxElementCount = c.maxElementCount := by
  induction ops generalizing c with
  | nil => rfl
  | cons o t ih => rw [run, List.foldl_cons, ← run, ih, applyOp_max]

/-! Preservation of the consistency invariant. -/

theorem Inv_Add {c : lruCache} (n : Node) (h : Inv c) : Inv (Add c n).2 := by
  obtain ⟨hd, hkn, hdk, hkd⟩ := h
  by_cases hk : n.GetKey ∈ c.dict
  · obtain ⟨e, hf, hek⟩ := find?_key_of_mem (hdk _ hk)
    rw [Add_mem_eq hk hf]
    have hperm :
        (keysOf { c with ll := n :: c.ll.eraseP (fun m => m.GetKey == n.GetKey) }).Perm
          (keysOf c) := by
      unfold keysOf
      have h2 := (perm_of_find? hf).map Node.GetKey
      have h3 : List.map Node.GetKey
            (n :: c.ll.eraseP (fun m => m.GetKey == n.GetKey)) =
          List.map Node.GetKey (e :: c.ll.eraseP (fun m => m.GetKey == n.GetKey)) := by
        simp only [List.map_cons, hek]
      rw [h3]
      exact h2
    exact ⟨hd, hperm.nodup_iff.mpr hkn,
      fun k hkk => hperm.mem_iff.mpr (hdk k hkk),
      fun k hkk => hkd k (hperm.mem_iff.mp hkk)⟩
  · have hnk : n.GetKey ∉ keysOf c := fun hmem => hk (hkd _ hmem)
    have hkeys1 : ((n :: c.ll).map Node.GetKey).Nodup := by
      simp only [List.map_cons]
      exact List.nodup_cons.mpr ⟨hnk, hkn⟩
    by_cases hlen : ((n :: c.ll).length : Int) > c.maxElementCount
    · rw [Add_new_evict_eq hk hlen]
      have hget := List.dropLast_append_getLast (l := n :: c.ll) (List.cons_ne_nil _ _)
      have hkeysplit : List.map Node.GetKey (n :: c.ll) =
          List.map Node.GetKey (n :: c.ll).dropLast ++
            [((n :: c.ll).getLast (List.cons_ne_nil _ _)).GetKey] := by
        conv_lhs => rw [← hget]
        simp
      have hsplit :
          (List.map Node.GetKey (n :: c.ll).dropLast ++
            [((n :: c.ll).getLast (List.cons_ne_nil _ _)).GetKey]).Perm
          (((n :: c.ll).getLast (List.cons_ne_nil _ _)).GetKey ::
            List.map Node.GetKey (n :: c.ll).dropLast) :=
        List.perm_append_singleton _ _
      have hkeys1' : (List.map Node.GetKey (n :: c.ll).dropLast ++
          [((n :: c.ll).getLast (List.cons_ne_nil _ _)).GetKey]).Nodup := by
        rw [← hkeysplit]; exact hkeys1
      have hcons := List.nodup_cons.mp (hsplit.nodup_iff.mp hkeys1')
      have hmem1 : ∀ k : Key, k ∈ (n :: c.ll).map Node.GetKey ↔
          (k = n.GetKey ∨ k ∈ keysOf c) := by
        intro k; simp [keysOf, Node.GetKey]
      have hmemsplit : ∀ k : Key, k ∈ (n :: c.ll).map Node.GetKey ↔
          (k = ((n :: c.ll).getLast (List.cons_ne_nil _ _)).GetKey ∨
            k ∈ List.map Node.GetKey (n :: c.ll).dropLast) := by
        intro k
        rw [hkeysplit, List.mem_append]
        simp [or_comm]
      have hd1 : (n.GetKey :: c.dict).Nodup := List.nodup_cons.mpr ⟨hk, hd⟩
      refine ⟨hd1.erase _, hcons.2, ?_, ?_⟩
      · intro k hkk
        have hkk' := hd1.mem_erase_iff.mp hkk
        have hk1 : k ∈ (n :: c.ll).map Node.GetKey := by
          rcases List.mem_cons.mp hkk'.2 with heq | hkk2
          · exact (hmem1 k).mpr (Or.inl heq)
          · exact (hmem1 k).mpr (Or.inr (hdk k hkk2))
        rcases (hmemsplit k).mp hk1 with heq | hmem
        · exact absurd heq hkk'.1
        · exact hmem
      · intro k hkk
        have hkk0 : k ∈ List.map Node.GetKey (n :: c.ll).dropLast := hkk
        have hne : k ≠ ((n :: c.ll).getLast (List.cons_ne_nil _ _)).GetKey :=
          fun heq => hcons.1 (heq ▸ hkk0)
        have hk1 : k ∈ (n :: c.ll).map Node.GetKey := (hmemsplit k).mpr (Or.inr hkk0)
        refine hd1.mem_erase_iff.mpr ⟨hne, ?_⟩
        rcases (hmem1 k).mp hk1 with heq | hmem
        · exact heq ▸ List.mem_cons_self _ _
        · exact List.mem_cons_of_mem _ (hkd k hmem)
    · rw [Add_new_fit_eq hk hlen]
      refine ⟨List.nodup_cons.mpr ⟨hk, hd⟩, hkeys1, ?_, ?_⟩
      · intro k hkk
        show k ∈ (n :: c.ll).map Node.GetKey
        simp only [List.map_cons, List.mem_cons]
        rcases List.mem_cons.mp hkk with heq | hkk2
        · exact Or.inl heq
        · have := hdk k hkk2
          exact Or.inr this
      · intro k hkk
        have hmm : k ∈ (n :: c.ll).map Node.GetKey := hkk
        simp only [List.map_cons, List.mem_cons] at hmm
        rcases hmm with heq | hmem
        · exact heq ▸ List.mem_cons_self _ _
        · exact List.mem_cons_of_mem _ (hkd k (List.mem_map.mpr
            (List.mem_map.mp hmem)))

theorem Inv_Get {c : lruCache} (k : Key) (h : Inv c) : Inv (Get c k).2 := by
  obtain ⟨hd, hkn, hdk, hkd⟩ := h
  by_cases hk : k ∈ c.dict
  · obtain ⟨e, hf, hek⟩ := find?_key_of_mem (hdk _ hk)
    rw [Get_hit_eq hk hf]
    have hperm :
        (keysOf { c with ll := e :: c.ll.eraseP (fun m => m.GetKey == k) }).Perm
          (keysOf c) := by
      unfold keysOf
      exact (perm_of_find? hf).map Node.GetKey
    exact ⟨hd, hperm.nodup_iff.mpr hkn,
      fun k' hkk => hperm.mem_iff.mpr (hdk k' hkk),
      fun k' hkk => hkd k' (hperm.mem_iff.mp hkk)⟩
  · rw [Get_miss_eq hk]
    exact ⟨hd, hkn, hdk, hkd⟩

theorem Inv_Remove {c : lruCache} (k : Key) (h : Inv c) : Inv (Remove c k).2 := by
  obtain ⟨hd, hkn, hdk, hkd⟩ := h
  by_cases hk : k ∈ c.dict
  · obtain ⟨e, hf, hek⟩ := find?_key_of_mem (hdk _ hk)
    rw [Remove_hit_eq hk hf]
    have hperm : (keysOf c).Perm
        (k :: List.map Node.GetKey (c.ll.eraseP (fun m => m.GetKey == k))) := by
      unfold keysOf
      have := ((perm_of_find? hf).map Node.GetKey).symm
      simp only [List.map_cons, hek] at this
      exact this
    have hcons := List.nodup_cons.mp (hperm.nodup_iff.mp hkn)
    refine ⟨hd.erase _, hcons.2, ?_, ?_⟩
    · intro k' hkk
      have hkk' := hd.mem_erase_iff.mp hkk
      have hmem : k' ∈ keysOf c := hdk k' hkk'.2
      rcases List.mem_cons.mp (hperm.mem_iff.mp hmem) with heq | htail
      · exact absurd heq hkk'.1
      · exact htail
    · intro k' hkk
      have hkk0 : k' ∈ List.map Node.GetKey (c.ll.eraseP (fun m => m.GetKey == k)) := hkk
      have hne : k' ≠ k := fun heq => hcons.1 (heq ▸ hkk0)
      have hmem : k' ∈ keysOf c := hperm.mem_iff.mpr (List.mem_cons_of_mem _ hkk0)
      exact hd.mem_erase_iff.mpr ⟨hne, hkd k' hmem⟩
  · rw [Remove_miss_eq hk]
    exact ⟨hd, hkn, hdk, hkd⟩

theorem Inv_applyOp {c : lruCache} (o : Op) (h : Inv c) : Inv (applyOp c o) := by
  cases o with
  | add n => exact Inv_Add n h
  | get k => exact Inv_Get k h
  | has k => exact h
  | rem k => exact Inv_Remove k h

theorem Inv_New (m : Int) : Inv (New m) := by
  refine ⟨List.nodup_nil, List.nodup_nil, ?_, ?_⟩ <;> intro k hk <;>
    simp [New, keysOf] at hk

theorem Inv_run {c : lruCache} (ops : List Op) (h : Inv c) : Inv (run c ops) := by
  induction ops generalizing c with
  | nil => exact h
  | cons o t ih => exact ih (Inv_applyOp o h)

/-! Length bounds: the recency list never exceeds the capacity. -/

theorem Len_applyOp_le {c : lruCache} {C : Nat} (o : Op)
    (hmax : c.maxElementCount = (C : Int)) (h : c.ll.length ≤ C) :
    (applyOp c o).ll.length ≤ C := by
  cases o with
  | add n =>
    show (Add c n).2.ll.length ≤ C
    by_cases hk : n.GetKey ∈ c.dict
    · cases hf : c.ll.find? (fun m => m.GetKey == n.GetKey) with
      | none => rw [Add_dangling_eq hk hf]; exact h
      | some e =>
        rw [Add_mem_eq hk hf]
        have := length_eraseP_of_find? hf
        simp only [List.length_cons]
        omega
    · by_cases hlen : ((n :: c.ll).length : Int) > c.maxElementCount
      · rw [Add_new_evict_eq hk hlen]
        simp only [List.length_dropLast, List.length_cons]
        omega
      · rw [Add_new_fit_eq hk hlen]
        rw [hmax] at hlen
        simp only [List.length_cons] at hlen ⊢
        omega
  | get k =>
    show (Get c k).2.ll.length ≤ C
    by_cases hk : k ∈ c.dict
    · cases hf : c.ll.find? (fun m => m.GetKey == k) with
      | none => rw [Get_dangling_eq hk hf]; exact h
      | some e =>
        rw [Get_hit_eq hk hf]
        have := length_eraseP_of_find? hf
        simp only [List.length_cons]
        omega
    · rw [Get_miss_eq hk]; exact h
  | has k => exact h
  | rem k =>
    show (Remove c k).2.ll.length ≤ C
    by_cases hk : k ∈ c.dict
    · cases hf : c.ll.find? (fun m => m.GetKey == k) with
      | none => rw [Remove_dangling_eq hk hf]; exact h
      | some e =>
        rw [Remove_hit_eq hk hf]
        have := length_eraseP_of_find? hf
        dsimp only
        omega
    · rw [Remove_miss_eq hk]; exact h

theorem Len_run_le {c : lruCache} {C : Nat} (ops : List Op)
    (hmax : c.maxElementCount = (C : Int)) (h : c.ll.length ≤ C) :
    (run c ops).ll.length ≤ C := by
  induction ops generalizing c with
  | nil => exact h
  | cons o t ih =>
    exact ih (by rw [applyOp_max]; exact hmax) (Len_applyOp_le o hmax h)

theorem run_cons (c : lruCache) (o : Op) (t : List Op) :
    run c (o :: t) = run (applyOp c o) t := rfl

/-- Adding a batch of nodes whose keys are distinct and fresh: the resulting
recency-list length is the previous length plus the batch size, capped at
the capacity. -/
theorem run_adds_length (nodes : List Node) :
    ∀ (c : lruCache) (C : Nat), c.maxElementCount = (C : Int) →
      (nodes.map Node.GetKey).Nodup →
      (∀ m ∈ nodes, m.GetKey ∉ c.dict) →
      c.ll.length ≤ C →
      (run c (nodes.map Op.add)).ll.length = min (c.ll.length + nodes.length) C := by
  induction nodes with
  | nil =>
    intro c C hmax hnd hdisj h
    simp only [List.map_nil, run, List.foldl_nil, Nat.add_zero]
    exact (Nat.min_eq_left h).symm
  | cons n rest ih =>
    intro c C hmax hnd hdisj h
    have hk : n.GetKey ∉ c.dict := hdisj n (List.mem_cons_self _ _)
    have hmax1 : (Add c n).2.maxElementCount = (C : Int) := by
      rw [Add_max]; exact hmax
    by_cases hlen : ((n :: c.ll).length : Int) > c.maxElementCount
    · have hAdd := Add_new_evict_eq hk hlen
      have hLC : c.ll.length = C := by
        rw [hmax] at hlen
        simp only [List.length_cons] at hlen
        omega
      have h1 : (Add c n).2.ll.length = C := by
        rw [hAdd]
        simp only [List.length_dropLast, List.length_cons]
        omega
      have hdisj1 : ∀ m ∈ rest, m.GetKey ∉ (Add c n).2.dict := by
        intro m hm hmem
        rw [hAdd] at hmem
        dsimp only at hmem
        have hmem1 : m.GetKey ∈ n.GetKey :: c.dict := List.mem_of_mem_erase hmem
        rcases List.mem_cons.mp hmem1 with heq | hmem2
        · exact (List.nodup_cons.mp hnd).1 (List.mem_map.mpr ⟨m, hm, heq⟩)
        · exact hdisj m (List.mem_cons_of_mem _ hm) hmem2
      have hres := ih (Add c n).2 C hmax1 (List.nodup_cons.mp hnd).2 hdisj1
        (by rw [h1])
      rw [show (n :: rest).map Op.add = Op.add n :: rest.map Op.add from rfl,
        run_cons, show applyOp c (Op.add n) = (Add c n).2 from rfl, hres, h1]
      simp only [List.length_cons]
      rw [hLC, Nat.min_eq_right (by omega), Nat.min_eq_right (by omega)]
    · have hAdd := Add_new_fit_eq hk hlen
      have h1 : (Add c n).2.ll.length = c.ll.length + 1 := by
        rw [hAdd]
        rfl
      have hle : c.ll.length + 1 ≤ C := by
        rw [hmax] at hlen
        simp only [List.length_cons] at hlen
        omega
      have hdisj1 : ∀ m ∈ rest, m.GetKey ∉ (Add c n).2.dict := by
        intro m hm hmem
        rw [hAdd] at hmem
        dsimp only at hmem
        rcases List.mem_cons.mp hmem with heq | hmem2
        · exact (List.nodup_cons.mp hnd).1 (List.mem_map.mpr ⟨m, hm, heq⟩)
        · exact hdisj m (List.mem_cons_of_mem _ hm) hmem2
      have hres := ih (Add c n).2 C hmax1 (List.nodup_cons.mp hnd).2 hdisj1
        (by rw [h1]; exact hle)
      rw [show (n :: rest).map Op.add = Op.add n :: rest.map Op.add from rfl,
        run_cons, show applyOp c (Op.add n) = (Add c n).2 from rfl, hres, h1]
      simp only [List.length_cons]
      congr 1
      omega

/-- Adding a batch of fresh, distinct keys that fits within the capacity:
the nodes pile up in front of the recency list in reverse insertion order,
and their keys are prepended to the index. -/
theorem run_adds_state (nodes : List Node) :
    ∀ c : lruCache,
      (∀ m ∈ nodes, m.GetKey ∉ c.dict) →
      (nodes.map Node.GetKey).Nodup →
      ((c.ll.length + nodes.length : Int) ≤ c.maxElementCount) →
      run c (nodes.map Op.add) =
        { c with dict := (nodes.map Node.GetKey).reverse ++ c.dict,
                 ll := nodes.reverse ++ c.ll } := by
  induction nodes with
  | nil => intro c _ _ _; simp [run]
  | cons n rest ih =>
    intro c hdisj hnd hcap
    have hk := hdisj n (List.mem_cons_self _ _)
    have hlen : ¬(((n :: c.ll).length : Int) > c.maxElementCount) := by
      simp only [List.length_cons] at hcap ⊢
      push_cast at hcap ⊢
      omega
    rw [show (n :: rest).map Op.add = Op.add n :: rest.map Op.add from rfl,
      run_cons, show applyOp c (Op.add n) = (Add c n).2 from rfl,
      Add_new_fit_eq hk hlen]
    have hstep := ih { c with dict := n.GetKey :: c.dict, ll := n :: c.ll }
      (by
        intro m hm hmem
        dsimp only at hmem
        rcases List.mem_cons.mp hmem with heq | hmem2
        · exact (List.nodup_cons.mp hnd).1 (List.mem_map.mpr ⟨m, hm, heq⟩)
        · exact hdisj m (List.mem_cons_of_mem _ hm) hmem2)
      ((List.nodup_cons.mp hnd).2)
      (by
        dsimp only
        simp only [List.length_cons] at hcap ⊢
        push_cast at hcap ⊢
        omega)
    rw [hstep]
    simp [List.append_assoc]

theorem nodup_concat_iff {α : Type} {A : List α} {x : α} :
    (A ++ [x]).Nodup ↔ A.Nodup ∧ x ∉ A := by
  rw [(List.perm_append_singleton x A).nodup_iff, List.nodup_cons]
  tauto

theorem find?_append_none {α : Type} {p : α → Bool} {l1 l2 : List α}
    (h : l1.find? p = none) : (l1 ++ l2).find? p = l2.find? p := by
  rw [List.find?_append, h]; rfl

/-- With a non-positive capacity, every state reachable from `New` is the
empty state. -/
theorem run_nonpos_empty {M : Int} (hM : M ≤ 0) (ops : List Op) :
    run (New M) ops = New M := by
  induction ops with
  | nil => rfl
  | cons o t ih =>
    rw [run_cons, show applyOp (New M) o = New M from ?_, ih]
    cases o with
    | add n =>
      show (Add (New M) n).2 = New M
      have hk : n.GetKey ∉ (New M).dict := by simp [New]
      have hlen : (((n :: (New M).ll).length : Int) > (New M).maxElementCount) := by
        simp only [New, List.length_cons, List.length_nil]
        omega
      rw [Add_new_evict_eq hk hlen]
      simp [New, Node.GetKey]
    | get k =>
      show (Get (New M) k).2 = New M
      rw [Get_miss_eq (by simp [New])]
    | has k => rfl
    | rem k =>
      show (Remove (New M) k).2 = New M
      rw [Remove_miss_eq (by simp [New])]

/-- C1: for every capacity C and every sequence of Adds with distinct keys
starting from a fresh cache, the final length is at most C and equals
min(N, C); and after any operation sequence at all, the recency list never
exceeds the capacity. -/
theorem claim1_capacity_invariant (C : Nat) (nodes : List Node)
    (hnd : (nodes.map Node.GetKey).Nodup) :
    Len (run (New (C : Int)) (nodes.map Op.add)) ≤ C ∧
    Len (run (New (C : Int)) (nodes.map Op.add)) = min nodes.length C ∧
    ∀ ops : List Op, Len (run (New (C : Int)) ops) ≤ C := by
  have hmin := run_adds_length nodes (New (C : Int)) C rfl hnd
    (by intro m _ hmem; simp [New] at hmem) (by simp [New])
  refine ⟨?_, ?_, ?_⟩
  · show (run (New (C : Int)) (nodes.map Op.add)).ll.length ≤ C
    rw [hmin]
    exact Nat.min_le_right _ _
  · show (run (New (C : Int)) (nodes.map Op.add)).ll.length = min nodes.length C
    rw [hmin]
    simp [New]
  · intro ops
    show (run (New (C : Int)) ops).ll.length ≤ C
    exact Len_run_le ops rfl (by simp [New])

theorem claim1_capacity_invariant_witness :
    Len (run (New ((1 : Nat) : Int))
      (([⟨[0], 0⟩, ⟨[1], 1⟩] : List Node).map Op.add)) =
      min ([⟨[0], 0⟩, ⟨[1], 1⟩] : List Node).length 1 :=
  (claim1_capacity_invariant 1 [⟨[0], 0⟩, ⟨[1], 1⟩] (by decide)).2.1

/-- C2: after any sequence of operations from a fresh cache, the key
index and the recency list hold exactly the same keys, with the index
containing exactly one entry per distinct key of the list. -/
theorem claim2_index_matches_list (M : Int) (ops : List Op) :
    Inv (run (New M) ops) :=
  Inv_run ops (Inv_New M)

/-- C8: calling Add with a nil node panics immediately — the recorded
state at the panic is the unmodified cache state, since the nil
dereference happens in Add's first statement, before any mutation. -/
theorem claim8_nil_add_panics (c : lruCache) :
    AddIface c none = AddResult.panicked c := rfl

/-- C9: with maxElementCount ≤ 0, every state reachable from New is
empty, and every Add of a fresh key immediately evicts the just-inserted
node: it is returned and the cache stays empty (removed from both the
list and the index). -/
theorem claim9_nonpositive_capacity (M : Int) (hM : M ≤ 0) (ops : List Op) :
    (run (New M) ops).dict = [] ∧ (run (New M) ops).ll = [] ∧
    ∀ n : Node, Add (run (New M) ops) n = (some n, run (New M) ops) := by
  rw [run_nonpos_empty hM ops]
  refine ⟨rfl, rfl, ?_⟩
  intro n
  have hk : n.GetKey ∉ (New M).dict := by simp [New]
  have hlen : (((n :: (New M).ll).length : Int) > (New M).maxElementCount) := by
    simp only [New, List.length_cons, List.length_nil]
    omega
  rw [Add_new_evict_eq hk hlen]
  simp [New, Node.GetKey]

theorem claim9_nonpositive_capacity_witness :
    Add (run (New (-1)) [Op.add ⟨[4], 4⟩, Op.get [4]]) ⟨[6], 6⟩ =
      (some ⟨[6], 6⟩, run (New (-1)) [Op.add ⟨[4], 4⟩, Op.get [4]]) :=
  (claim9_nonpositive_capacity (-1) (by decide)
    [Op.add ⟨[4], 4⟩, Op.get [4]]).2.2 ⟨[6], 6⟩

/-- C10: a Get or Remove on a missing key returns nil and leaves the
state untouched; Has never changes the state; and a Get on any key
preserves the index and the capacity, permuting only the recency list. -/
theorem claim10_read_frame (c : lruCache) (k k2 : Key) (hmiss : k ∉ c.dict) :
    Get c k = (none, c) ∧
    Remove c k = (none, c) ∧
    applyOp c (Op.has k2) = c ∧
    (Get c k2).2.dict = c.dict ∧
    (Get c k2).2.maxElementCount = c.maxElementCount ∧
    ((Get c k2).2.ll).Perm c.ll := by
  refine ⟨Get_miss_eq hmiss, Remove_miss_eq hmiss, rfl, ?_, ?_, ?_⟩ <;>
    by_cases hk2 : k2 ∈ c.dict
  case pos =>
    cases hf : c.ll.find? (fun m => m.GetKey == k2) with
    | none => rw [Get_dangling_eq hk2 hf]
    | some e => rw [Get_hit_eq hk2 hf]
  case neg => rw [Get_miss_eq hk2]
  case pos =>
    cases hf : c.ll.find? (fun m => m.GetKey == k2) with
    | none => rw [Get_dangling_eq hk2 hf]
    | some e => rw [Get_hit_eq hk2 hf]
  case neg => rw [Get_miss_eq hk2]
  case pos =>
    cases hf : c.ll.find? (fun m => m.GetKey == k2) with
    | none => rw [Get_dangling_eq hk2 hf]
    | some e =>
      rw [Get_hit_eq hk2 hf]
      exact perm_of_find? hf
  case neg => rw [Get_miss_eq hk2]

theorem claim10_read_frame_witness :
    Get (run (New 2) [Op.add ⟨[0], 0⟩]) [7] =
      (none, run (New 2) [Op.add ⟨[0], 0⟩]) :=
  (claim10_read_frame (run (New 2) [Op.add ⟨[0], 0⟩]) [7] [0] (by decide)).1

/-- C3: adding a fresh key pushes the node to the front and registers the
key; if the list then exceeds the capacity, the back (least recently used)
node is the returned eviction and is removed from both the list and the
index; otherwise Add returns nil and only the push and registration
happen. -/
theorem claim3_add_fresh_key (c : lruCache) (n : Node) (hInv : Inv c)
    (hk : n.GetKey ∉ c.dict) :
    (¬(((n :: c.ll).length : Int) > c.maxElementCount) →
      Add c n = (none, { c with dict := n.GetKey :: c.dict, ll := n :: c.ll })) ∧
    ((((n :: c.ll).length : Int) > c.maxElementCount) →
      ∃ ev, (n :: c.ll).getLast? = some ev ∧
        (Add c n).1 = some ev ∧
        (Add c n).2.ll = (n :: c.ll).dropLast ∧
        ev.GetKey ∉ (Add c n).2.dict ∧
        (∀ k : Key, k ∈ (Add c n).2.dict ↔
          (k ∈ n.GetKey :: c.dict ∧ k ≠ ev.GetKey))) := by
  constructor
  · intro hlen
    exact Add_new_fit_eq hk hlen
  · intro hlen
    have hd1 : (n.GetKey :: c.dict).Nodup := List.nodup_cons.mpr ⟨hk, hInv.1⟩
    refine ⟨(n :: c.ll).getLast (List.cons_ne_nil _ _),
      List.getLast?_eq_getLast _ _, ?_, ?_, ?_, ?_⟩
    · rw [Add_new_evict_eq hk hlen]
    · rw [Add_new_evict_eq hk hlen]
    · rw [Add_new_evict_eq hk hlen]
      dsimp only
      intro hmem
      exact (hd1.mem_erase_iff.mp hmem).1 rfl
    · intro k
      rw [Add_new_evict_eq hk hlen]
      dsimp only
      rw [hd1.mem_erase_iff]
      tauto

theorem claim3_add_fresh_key_witness :
    ∃ ev, ((⟨[1], 1⟩ : Node) :: (run (New 1) [Op.add ⟨[0], 0⟩]).ll).getLast? =
        some ev ∧
      (Add (run (New 1) [Op.add ⟨[0], 0⟩]) ⟨[1], 1⟩).1 = some ev ∧
      (Add (run (New 1) [Op.add ⟨[0], 0⟩]) ⟨[1], 1⟩).2.ll =
        ((⟨[1], 1⟩ : Node) :: (run (New 1) [Op.add ⟨[0], 0⟩]).ll).dropLast ∧
      ev.GetKey ∉ (Add (run (New 1) [Op.add ⟨[0], 0⟩]) ⟨[1], 1⟩).2.dict ∧
      (∀ k : Key, k ∈ (Add (run (New 1) [Op.add ⟨[0], 0⟩]) ⟨[1], 1⟩).2.dict ↔
        (k ∈ (⟨[1], 1⟩ : Node).GetKey :: (run (New 1) [Op.add ⟨[0], 0⟩]).dict ∧
          k ≠ ev.GetKey)) :=
  (claim3_add_fresh_key (run (New 1) [Op.add ⟨[0], 0⟩]) ⟨[1], 1⟩
    (by decide) (by decide)).2 (by decide)

/-- C4: adding an entry under a key already present replaces the stored
value in place: the old node is returned, the new node sits at the front,
the same node slot is reused (the remainder of the list is the old list
minus that slot), the index is untouched, no eviction happens and the
length is unchanged. -/
theorem claim4_add_existing_key (c : lruCache) (n : Node) (hInv : Inv c)
    (hk : n.GetKey ∈ c.dict) :
    ∃ old, c.ll.find? (fun m => m.GetKey == n.GetKey) = some old ∧
      old.GetKey = n.GetKey ∧
      Add c n = (some old,
        { c with ll := n :: c.ll.eraseP (fun m => m.GetKey == n.GetKey) }) ∧
      (Add c n).2.ll.head? = some n ∧
      (Add c n).2.dict = c.dict ∧
      Len (Add c n).2 = Len c ∧
      (Add c n).2.maxElementCount = c.maxElementCount := by
  obtain ⟨e, hf, hek⟩ := find?_key_of_mem (hInv.2.2.1 _ hk)
  have hAdd := Add_mem_eq hk hf
  have hlen := length_eraseP_of_find? hf
  refine ⟨e, hf, hek, hAdd, ?_, ?_, ?_, ?_⟩
  · rw [hAdd]
    rfl
  · rw [hAdd]
  · show (Add c n).2.ll.length = c.ll.length
    rw [hAdd]
    dsimp only
    simp only [List.length_cons]
    omega
  · rw [hAdd]

theorem claim4_add_existing_key_witness :
    ∃ old, (run (New 2) [Op.add ⟨[0], 0⟩]).ll.find?
        (fun m => m.GetKey == (⟨[0], 9⟩ : Node).GetKey) = some old ∧
      old.GetKey = (⟨[0], 9⟩ : Node).GetKey ∧
      Add (run (New 2) [Op.add ⟨[0], 0⟩]) ⟨[0], 9⟩ = (some old,
        { run (New 2) [Op.add ⟨[0], 0⟩] with
            ll := (⟨[0], 9⟩ : Node) :: (run (New 2) [Op.add ⟨[0], 0⟩]).ll.eraseP
              (fun m => m.GetKey == (⟨[0], 9⟩ : Node).GetKey) }) ∧
      (Add (run (New 2) [Op.add ⟨[0], 0⟩]) ⟨[0], 9⟩).2.ll.head? =
        some ⟨[0], 9⟩ ∧
      (Add (run (New 2) [Op.add ⟨[0], 0⟩]) ⟨[0], 9⟩).2.dict =
        (run (New 2) [Op.add ⟨[0], 0⟩]).dict ∧
      Len (Add (run (New 2) [Op.add ⟨[0], 0⟩]) ⟨[0], 9⟩).2 =
        Len (run (New 2) [Op.add ⟨[0], 0⟩]) ∧
      (Add (run (New 2) [Op.add ⟨[0], 0⟩]) ⟨[0], 9⟩).2.maxElementCount =
        (run (New 2) [Op.add ⟨[0], 0⟩]).maxElementCount :=
  claim4_add_existing_key (run (New 2) [Op.add ⟨[0], 0⟩]) ⟨[0], 9⟩
    (by decide) (by decide)

/-- C7: round trip. From any consistent state with spare capacity,
after Add(n) a Get on n's key returns n and Has answers true; after
Remove(k) a Get on k returns nil and Has answers false. -/
theorem claim7_round_trip (c : lruCache) (n : Node) (hInv : Inv c)
    (hspare : (c.ll.length : Int) < c.maxElementCount) :
    (Get (Add c n).2 n.GetKey).1 = some n ∧
    Has (Add c n).2 n.GetKey = true ∧
    (Get (Remove c n.GetKey).2 n.GetKey).1 = none ∧
    Has (Remove c n.GetKey).2 n.GetKey = false := by
  have hbeq : ((fun m => m.GetKey == n.GetKey) n) = true := by simp
  have hAddState : (∃ X, (Add c n).2.ll = n :: X) ∧ n.GetKey ∈ (Add c n).2.dict := by
    by_cases hk : n.GetKey ∈ c.dict
    · obtain ⟨e, hf, hek⟩ := find?_key_of_mem (hInv.2.2.1 _ hk)
      rw [Add_mem_eq hk hf]
      exact ⟨⟨_, rfl⟩, hk⟩
    · have hlen : ¬(((n :: c.ll).length : Int) > c.maxElementCount) := by
        simp only [List.length_cons]
        push_cast
        omega
      rw [Add_new_fit_eq hk hlen]
      exact ⟨⟨_, rfl⟩, List.mem_cons_self _ _⟩
  obtain ⟨⟨X, hll⟩, hmem⟩ := hAddState
  have hf1 : (Add c n).2.ll.find? (fun m => m.GetKey == n.GetKey) = some n := by
    rw [hll]
    exact List.find?_cons_of_pos _ hbeq
  have hout : n.GetKey ∉ (Remove c n.GetKey).2.dict := by
    by_cases hk : n.GetKey ∈ c.dict
    · obtain ⟨e, hf, hek⟩ := find?_key_of_mem (hInv.2.2.1 _ hk)
      rw [Remove_hit_eq hk hf]
      intro hmem2
      exact ((hInv.1.mem_erase_iff.mp hmem2).1) rfl
    · rw [Remove_miss_eq hk]
      exact hk
  refine ⟨by rw [Get_hit_eq hmem hf1], by simp [Has, hmem],
    by rw [Get_miss_eq hout], by simp [Has, hout]⟩

theorem claim7_round_trip_witness :
    (Get (Add (run (New 3) [Op.add ⟨[0], 0⟩]) ⟨[1], 1⟩).2
        (⟨[1], 1⟩ : Node).GetKey).1 = some ⟨[1], 1⟩ ∧
    Has (Add (run (New 3) [Op.add ⟨[0], 0⟩]) ⟨[1], 1⟩).2
        (⟨[1], 1⟩ : Node).GetKey = true ∧
    (Get (Remove (run (New 3) [Op.add ⟨[0], 0⟩])
        (⟨[1], 1⟩ : Node).GetKey).2 (⟨[1], 1⟩ : Node).GetKey).1 = none ∧
    Has (Remove (run (New 3) [Op.add ⟨[0], 0⟩])
        (⟨[1], 1⟩ : Node).GetKey).2 (⟨[1], 1⟩ : Node).GetKey = false :=
  claim7_round_trip (run (New 3) [Op.add ⟨[0], 0⟩]) ⟨[1], 1⟩
    (by decide) (by decide)

/-- C5: inserting C+1 distinct fresh keys in order into a fresh cache of
capacity C evicts exactly the first (least recently touched) key: the last
Add returns the first node, the final list holds the other nodes, and the
index holds exactly the other keys. -/
theorem claim5_eviction_order (n1 : Node) (ns : List Node) (nl : Node)
    (hnd : (((n1 :: ns) ++ [nl]).map Node.GetKey).Nodup) :
    (Add (run (New ((n1 :: ns).length : Int)) ((n1 :: ns).map Op.add)) nl).1 =
      some n1 ∧
    (Add (run (New ((n1 :: ns).length : Int)) ((n1 :: ns).map Op.add)) nl).2.ll =
      nl :: ns.reverse ∧
    n1.GetKey ∉
      (Add (run (New ((n1 :: ns).length : Int)) ((n1 :: ns).map Op.add)) nl).2.dict ∧
    (∀ k : Key,
      k ∈ (Add (run (New ((n1 :: ns).length : Int))
          ((n1 :: ns).map Op.add)) nl).2.dict ↔
        (k = nl.GetKey ∨ k ∈ ns.map Node.GetKey)) := by
  have hnd' : ((n1.GetKey :: ns.map Node.GetKey) ++ [nl.GetKey]).Nodup := by
    simpa using hnd
  have hsplit := nodup_concat_iff.mp hnd'
  have hn1ns : n1.GetKey ∉ ns.map Node.GetKey := (List.nodup_cons.mp hsplit.1).1
  have hnl1 : nl.GetKey ≠ n1.GetKey := by
    intro h
    exact hsplit.2 (by rw [h]; exact List.mem_cons_self _ _)
  have hnlns : nl.GetKey ∉ ns.map Node.GetKey :=
    fun h => hsplit.2 (List.mem_cons_of_mem _ h)
  set c1 := run (New ((n1 :: ns).length : Int)) ((n1 :: ns).map Op.add) with hc1
  have hstate := run_adds_state (n1 :: ns) (New ((n1 :: ns).length : Int))
    (by intro m _ hmem; simp [New] at hmem)
    (by simpa using hsplit.1)
    (by simp [New])
  have hd : c1.dict = ((n1 :: ns).map Node.GetKey).reverse := by
    rw [hc1, hstate]; simp [New]
  have hl : c1.ll = (n1 :: ns).reverse := by
    rw [hc1, hstate]; simp [New]
  have hm : c1.maxElementCount = ((n1 :: ns).length : Int) := by
    rw [hc1, hstate]; rfl
  have hknl : nl.GetKey ∉ c1.dict := by
    rw [hd]
    simp only [List.mem_reverse, List.map_cons, List.mem_cons]
    intro hc
    rcases hc with h | h
    · exact hnl1 h
    · exact hnlns h
  have hlenS : ((nl :: c1.ll).length : Int) > c1.maxElementCount := by
    rw [hl, hm]
    simp only [List.length_cons, List.length_reverse]
    push_cast
    omega
  have hAdd := Add_new_evict_eq hknl hlenS
  have hconcat : nl :: (n1 :: ns).reverse = (nl :: ns.reverse) ++ [n1] := by
    simp [List.reverse_cons]
  have hglq : (nl :: c1.ll).getLast? = some n1 := by
    rw [hl, hconcat]
    exact List.getLast?_concat _
  have hgl : (nl :: c1.ll).getLast (List.cons_ne_nil _ _) = n1 := by
    have h2 := List.getLast?_eq_getLast (nl :: c1.ll) (List.cons_ne_nil _ _)
    rw [hglq] at h2
    exact (Option.some.inj h2).symm
  have hdict : ((nl.GetKey :: ((n1 :: ns).map Node.GetKey).reverse).erase n1.GetKey) =
      nl.GetKey :: (ns.map Node.GetKey).reverse := by
    rw [List.erase_cons_tail, List.map_cons, List.reverse_cons,
      List.erase_append_right _ (by simpa using hn1ns)]
    · simp
    · simp [hnl1]
  refine ⟨?_, ?_, ?_, ?_⟩
  · rw [hAdd, hgl]
  · rw [hAdd]
    dsimp only
    rw [hl, hconcat, List.dropLast_concat]
  · rw [hAdd]
    dsimp only
    rw [hgl, hd, hdict]
    simp only [List.mem_cons, List.mem_reverse]
    intro hc
    rcases hc with h | h
    · exact hnl1 h.symm
    · exact hn1ns h
  · intro k
    rw [hAdd]
    dsimp only
    rw [hgl, hd, hdict]
    simp [Node.GetKey]

theorem claim5_eviction_order_witness :
    (Add (run (New (((⟨[0], 0⟩ : Node) :: [⟨[1], 1⟩]).length : Int))
        (((⟨[0], 0⟩ : Node) :: [⟨[1], 1⟩]).map Op.add)) ⟨[2], 2⟩).1 =
      some ⟨[0], 0⟩ :=
  (claim5_eviction_order ⟨[0], 0⟩ [⟨[1], 1⟩] ⟨[2], 2⟩ (by decide)).1

/-- C6: promotion on read. After filling a fresh cache of capacity C with
distinct keys in order, a successful Get on the first key promotes it, so
adding one more fresh key evicts the second key instead: the Add returns
the second node, the first key stays indexed, the second key is gone. -/
theorem claim6_promotion_on_read (n1 n2 : Node) (ns : List Node) (nl : Node)
    (hnd : (((n1 :: n2 :: ns) ++ [nl]).map Node.GetKey).Nodup) :
    (Get (run (New ((n1 :: n2 :: ns).length : Int))
        ((n1 :: n2 :: ns).map Op.add)) n1.GetKey).1 = some n1 ∧
    (Add (Get (run (New ((n1 :: n2 :: ns).length : Int))
        ((n1 :: n2 :: ns).map Op.add)) n1.GetKey).2 nl).1 = some n2 ∧
    n1.GetKey ∈ (Add (Get (run (New ((n1 :: n2 :: ns).length : Int))
        ((n1 :: n2 :: ns).map Op.add)) n1.GetKey).2 nl).2.dict ∧
    n2.GetKey ∉ (Add (Get (run (New ((n1 :: n2 :: ns).length : Int))
        ((n1 :: n2 :: ns).map Op.add)) n1.GetKey).2 nl).2.dict := by
  have hnd' : ((n1.GetKey :: n2.GetKey :: ns.map Node.GetKey) ++ [nl.GetKey]).Nodup := by
    simpa using hnd
  have hsplit := nodup_concat_iff.mp hnd'
  have hcons1 := List.nodup_cons.mp hsplit.1
  have hcons2 := List.nodup_cons.mp hcons1.2
  have h1ne2 : n1.GetKey ≠ n2.GetKey :=
    fun h => hcons1.1 (by rw [h]; exact List.mem_cons_self _ _)
  have h1ns : n1.GetKey ∉ ns.map Node.GetKey :=
    fun h => hcons1.1 (List.mem_cons_of_mem _ h)
  have h2ns : n2.GetKey ∉ ns.map Node.GetKey := hcons2.1
  have hnl1 : nl.GetKey ≠ n1.GetKey := by
    intro h
    exact hsplit.2 (by rw [h]; exact List.mem_cons_self _ _)
  have hnl2 : nl.GetKey ≠ n2.GetKey := by
    intro h
    exact hsplit.2 (by rw [h]; exact List.mem_cons_of_mem _ (List.mem_cons_self _ _))
  set c1 := run (New ((n1 :: n2 :: ns).length : Int)) ((n1 :: n2 :: ns).map Op.add)
    with hc1r
  have hstate := run_adds_state (n1 :: n2 :: ns) (New ((n1 :: n2 :: ns).length : Int))
    (by intro m _ hmem; simp [New] at hmem)
    (by simpa using hsplit.1)
    (by simp [New])
  have hd : c1.dict = ((n1 :: n2 :: ns).map Node.GetKey).reverse := by
    rw [hc1r, hstate]; simp [New]
  have hl : c1.ll = (n1 :: n2 :: ns).reverse := by
    rw [hc1r, hstate]; simp [New]
  have hm : c1.maxElementCount = ((n1 :: n2 :: ns).length : Int) := by
    rw [hc1r, hstate]; rfl
  have hrev : (n1 :: n2 :: ns).reverse = (n2 :: ns).reverse ++ [n1] :=
    List.reverse_cons _ _
  have hmem1 : n1.GetKey ∈ c1.dict := by
    rw [hd]
    simp
  have hfl : ((n2 :: ns).reverse).find? (fun m => m.GetKey == n1.GetKey) = none := by
    apply find?_key_eq_none
    intro h
    rw [List.map_reverse, List.mem_reverse] at h
    simp only [List.map_cons] at h
    exact hcons1.1 h
  have hfind : c1.ll.find? (fun m => m.GetKey == n1.GetKey) = some n1 := by
    rw [hl, hrev, find?_append_none hfl]
    exact List.find?_cons_of_pos _ (by simp)
  have hGet := Get_hit_eq hmem1 hfind
  have hc2ll : (Get c1 n1.GetKey).2.ll = n1 :: (n2 :: ns).reverse := by
    rw [hGet]
    dsimp only
    congr 1
    rw [hl, hrev, List.eraseP_append_right _ ?hnomatch]
    case hnomatch =>
      intro b hb
      simp only [beq_iff_eq]
      intro he
      apply hcons1.1
      rw [← he]
      rw [List.mem_reverse] at hb
      exact List.mem_map.mpr ⟨b, hb, rfl⟩
    rw [List.eraseP_cons_of_pos (by simp)]
    simp
  have hc2d : (Get c1 n1.GetKey).2.dict = c1.dict := by rw [hGet]
  have hc2m : (Get c1 n1.GetKey).2.maxElementCount = c1.maxElementCount := by
    rw [hGet]
  have hknl : nl.GetKey ∉ (Get c1 n1.GetKey).2.dict := by
    rw [hc2d, hd]
    simp only [List.mem_reverse, List.map_cons, List.mem_cons]
    intro hc
    rcases hc with h | h
    · exact hnl1 h
    · rcases h with h | h
      · exact hnl2 h
      · exact hsplit.2 (List.mem_cons_of_mem _ (List.mem_cons_of_mem _ h))
  have hlen2 : ((nl :: (Get c1 n1.GetKey).2.ll).length : Int) >
      (Get c1 n1.GetKey).2.maxElementCount := by
    rw [hc2ll, hc2m, hm]
    simp only [List.length_cons, List.length_reverse]
    push_cast
    omega
  have hAdd := Add_new_evict_eq hknl hlen2
  have hconcat2 : nl :: (n1 :: (n2 :: ns).reverse) = (nl :: n1 :: ns.reverse) ++ [n2] := by
    simp [List.reverse_cons]
  have hglq : (nl :: (Get c1 n1.GetKey).2.ll).getLast? = some n2 := by
    rw [hc2ll, hconcat2]
    exact List.getLast?_concat _
  have hgl : (nl :: (Get c1 n1.GetKey).2.ll).getLast (List.cons_ne_nil _ _) = n2 := by
    have h2 := List.getLast?_eq_getLast (nl :: (Get c1 n1.GetKey).2.ll)
      (List.cons_ne_nil _ _)
    rw [hglq] at h2
    exact (Option.some.inj h2).symm
  have hrd : ((n1 :: n2 :: ns).map Node.GetKey).reverse =
      (ns.map Node.GetKey).reverse ++ [n2.GetKey, n1.GetKey] := by
    simp
  have hdict : ((nl.GetKey :: ((n1 :: n2 :: ns).map Node.GetKey).reverse).erase
      n2.GetKey) = nl.GetKey :: ((ns.map Node.GetKey).reverse ++ [n1.GetKey]) := by
    rw [List.erase_cons_tail, hrd,
      List.erase_append_right _ (by simpa using h2ns)]
    · rw [show ([n2.GetKey, n1.GetKey].erase n2.GetKey) = [n1.GetKey] from
        List.erase_cons_head _ _]
    · simp [hnl2]
  refine ⟨by rw [hGet], ?_, ?_, ?_⟩
  · rw [hAdd, hgl]
  · rw [hAdd]
    dsimp only
    rw [hgl, hc2d, hd, hdict]
    simp
  · rw [hAdd]
    dsimp only
    rw [hgl, hc2d, hd, hdict]
    simp only [List.mem_cons, List.mem_append, List.mem_reverse]
    intro hc
    rcases hc with h | h
    · exact hnl2 h.symm
    · rcases h with h | h
      · exact h2ns h
      · rcases h with h | h
        · exact h1ne2 h.symm
        · simp at h

theorem claim6_promotion_on_read_witness :
    (Add (Get (run
        (New (((⟨[0], 0⟩ : Node) :: ⟨[1], 1⟩ :: ([] : List Node)).length : Int))
        (((⟨[0], 0⟩ : Node) :: ⟨[1], 1⟩ :: ([] : List Node)).map Op.add))
        (⟨[0], 0⟩ : Node).GetKey).2 ⟨[2], 2⟩).1 = some ⟨[1], 1⟩ :=
  (claim6_promotion_on_read ⟨[0], 0⟩ ⟨[1], 1⟩ [] ⟨[2], 2⟩ (by decide)).2.1

end LRU
